/-
Verification development for the scheduling core of a chat-automation bot
(recurring weekday "mark" scheduler plus one-shot delayed messages).

The definitions below are shallow embeddings of the Python source:
  - times of day are triples (hour, minute, second), converted to seconds
    from midnight exactly as the source does;
  - the random generator random.randint(a, b) is modelled as a function of
    an arbitrary draw r, returning none exactly when Python raises
    ValueError (a > b);
  - datetime construction is modelled as an Option, none exactly when the
    Python datetime constructor raises ValueError (field out of range);
  - the asynchronous loops are modelled as explicit state passing; sleeps
    are recorded as data where a claim is about them.
-/
import Mathlib

/-- Time of day, mirroring datetime.time(hour, minute, second). -/
structure Tod where
  hour : Nat
  minute : Nat
  second : Nat
deriving DecidableEq, Repr

/-- Seconds from midnight, as computed in get_random_time_in_range. -/
def todToSecs (t : Tod) : Nat :=
  t.hour * 3600 + t.minute * 60 + t.second

/-- Conversion of a second count back to a time of day, as computed at the
end of get_random_time_in_range (integer division and remainders). -/
def todOfSecs (s : Nat) : Tod :=
  Tod.mk (s / 3600) (s % 3600 / 60) (s % 60)

theorem todToSecs_todOfSecs (s : Nat) : todToSecs (todOfSecs s) = s := by
  unfold todToSecs todOfSecs
  simp only
  omega

/-- Python random.randint(a, b): uniform on [a, b] when a <= b, ValueError
(modelled as none) when a > b. The draw r selects the value a + r % (b-a+1):
every value of [a, b] is reached by some r. -/
def pyRandint (a b r : Nat) : Option Nat :=
  if a ≤ b then some (a + r % (b - a + 1)) else none

/-- DiscordBot.get_random_time_in_range: convert both bounds to seconds;
if start >= end return end, else draw randint(start + 3, end) where 3 is
WORK_DAY_END_SECOND_SHIFT; convert the chosen seconds back to a time. -/
def get_random_time_in_range (startTime endTime : Tod) (r : Nat) : Option Tod :=
  let startSeconds := todToSecs startTime
  let endSeconds := todToSecs endTime
  if endSeconds ≤ startSeconds then
    some (todOfSecs endSeconds)
  else
    Option.map todOfSecs (pyRandint (startSeconds + 3) endSeconds r)

/-- Naive datetime with second precision, mirroring datetime.datetime. -/
structure PyDateTime where
  year : Nat
  month : Nat
  day : Nat
  hour : Nat
  minute : Nat
  second : Nat
deriving DecidableEq, Repr

/-- Gregorian leap-year rule used by calendar.monthrange. -/
def isLeapYear (y : Nat) : Bool :=
  (y % 4 == 0 && y % 100 != 0) || y % 400 == 0

/-- calendar.monthrange(year, month)[1]: the number of days of the month. -/
def daysInMonth (y m : Nat) : Nat :=
  if m = 2 then (if isLeapYear y then 29 else 28)
  else if m = 4 ∨ m = 6 ∨ m = 9 ∨ m = 11 then 30
  else 31

/-- The datetime.datetime constructor: validates every field (Python raises
ValueError, modelled as none, when a field is out of range). -/
def mkPyDateTime (y m d h mi s : Nat) : Option PyDateTime :=
  if 1 ≤ y ∧ y ≤ 9999 ∧ 1 ≤ m ∧ m ≤ 12 ∧ 1 ≤ d ∧ d ≤ daysInMonth y m
      ∧ h < 24 ∧ mi < 60 ∧ s < 60 then
    some (PyDateTime.mk y m d h mi s)
  else none

/-- DiscordBot._calculate_wait_until_target_date, with waitDay the value of
_wait_until_target_day and startTime the window start _start_time. The
comparison of today's window-start instant with moscow_now reduces to a
comparison of times of day because both carry the same date and zone. -/
def calculate_wait_until_target_date (waitDay : Option Nat) (startTime : Tod)
    (now : PyDateTime) : Option PyDateTime :=
  match waitDay with
  | none =>
      mkPyDateTime now.year now.month now.day now.hour now.minute (now.second + 1)
  | some day =>
      let targetYear :=
        if now.day < day then
          if day ≤ daysInMonth now.year now.month then now.year
          else (if now.month < 12 then now.year else now.year + 1)
        else if day = now.day then
          if todToSecs (Tod.mk now.hour now.minute now.second) < todToSecs startTime then
            now.year
          else (if now.month < 12 then now.year else now.year + 1)
        else (if now.month < 12 then now.year else now.year + 1)
      let targetMonth :=
        if now.day < day then
          if day ≤ daysInMonth now.year now.month then now.month
          else (if now.month < 12 then now.month + 1 else 1)
        else if day = now.day then
          if todToSecs (Tod.mk now.hour now.minute now.second) < todToSecs startTime then
            now.month
          else (if now.month < 12 then now.month + 1 else 1)
        else (if now.month < 12 then now.month + 1 else 1)
      mkPyDateTime targetYear targetMonth day startTime.hour startTime.minute startTime.second

/-- DiscordBot.wait_until_next_date, target-shift step: instants are absolute
seconds in the fixed Moscow zone; when the current instant is strictly past
the target, the target is moved one day (86400 s) forward. -/
def wait_shift_target (currentSec nextSec : Int) : Int :=
  if nextSec < currentSec then nextSec + 86400 else nextSec

/-- DiscordBot.wait_until_next_date, sleep amount: the difference between the
(possibly shifted) target and the current instant, handed to asyncio.sleep. -/
def wait_seconds (currentSec nextSec : Int) : Int :=
  wait_shift_target currentSec nextSec - currentSec

/-- The mutable scheduling fields of DiscordBot used by the recurring loop. -/
structure SchedState where
  is_mark_enabled : Bool
  was_sent_today : Bool
  chat_channel_message : List Char
  next_target_time : Option Tod
deriving DecidableEq, Repr

/-- One message handed to the external sender: channel id and content. -/
structure SendEffect where
  channelId : Int
  content : List Char
deriving DecidableEq, Repr

/-- DiscordBot._send_scheduled_message: when _is_mark_enabled, send the
configured message to the chat channel and set _was_sent_today; when
disabled, only log — neither a send nor a flag update happens. -/
def send_scheduled_message (st : SchedState) (chatChannelId : Int) :
    SchedState × List SendEffect :=
  if st.is_mark_enabled then
    ({ st with was_sent_today := true },
     [SendEffect.mk chatChannelId st.chat_channel_message])
  else (st, [])

/-- Tail of DiscordBot._handle_workday_message_sending, entered once the
chosen fire instant has been reached: call _send_scheduled_message, then
regenerate _next_target_time drawing in the window [startTime + 3, endTime]
(the startTime passed in is today's window start). none models the
ValueError that a degenerate random range would raise. -/
def handle_workday_fire (st : SchedState) (chatChannelId : Int)
    (startTime endTime : Tod) (r : Nat) : Option (SchedState × List SendEffect) :=
  let sent := send_scheduled_message st chatChannelId
  match get_random_time_in_range startTime endTime r with
  | some t => some ({ sent.1 with next_target_time := some t }, sent.2)
  | none => none

/-- Outcome of one iteration body of DiscordBot.message_scheduler. -/
inductive IterOutcome where
  | ok : IterOutcome
  | cancelled : IterOutcome
  | error : Nat → IterOutcome
deriving DecidableEq, Repr

/-- What the loop does after an iteration: exit, or run again after
sleeping the given number of seconds. -/
inductive StepResult where
  | exitLoop : StepResult
  | continueLoop : Nat → StepResult
deriving DecidableEq, Repr

/-- The try/except structure of DiscordBot.message_scheduler: a normal
iteration continues at once; asyncio.CancelledError breaks the while-True
loop; every other exception is caught and followed by a sleep of
SCHEDULER_RESTART_DELAY_SECONDS = 300 before the next iteration. -/
def message_scheduler_step : IterOutcome → StepResult
  | IterOutcome.ok => StepResult.continueLoop 0
  | IterOutcome.cancelled => StepResult.exitLoop
  | IterOutcome.error _ => StepResult.continueLoop 300

/-- Whether the scheduler loop, fed the given sequence of iteration
outcomes, ever terminates. -/
def message_scheduler_stops : List IterOutcome → Bool
  | [] => false
  | o :: os =>
    match message_scheduler_step o with
    | StepResult.exitLoop => true
    | StepResult.continueLoop _ => message_scheduler_stops os

/-- What the environment does on one attempt of send_message_to_channel. -/
inductive AttemptEnv where
  | closedConn : AttemptEnv
  | channelMissing : AttemptEnv
  | sendOk : AttemptEnv
  | connErr : AttemptEnv
  | forbidden : AttemptEnv
  | notFound : AttemptEnv
  | httpErr : AttemptEnv
  | otherErr : AttemptEnv
deriving DecidableEq, Repr

/-- The attempt loop of DiscordBot.send_message_to_channel (max_retries = 3,
retry_delay = 5). First component: the returned value, where none models
falling off the for-loop (Python then returns None, not a bool). Second
component: the retry sleeps performed, each of 5 seconds.
rem is the number of loop iterations left, attempt the current index:
  - a closed connection logs, reconnects, sleeps 5 and continues;
  - a missing channel returns False at once;
  - a successful send returns True;
  - a connection error sleeps 5 and retries while attempt < max_retries - 1,
    otherwise returns False via _handle_message_send_error;
  - Forbidden, NotFound, HTTPException and any other exception return False
    at once via _handle_message_send_error. -/
def send_attempt_loop (env : Nat → AttemptEnv) : Nat → Nat → Option Bool × List Nat
  | 0, _ => (none, [])
  | rem + 1, attempt =>
    match env attempt with
    | AttemptEnv.closedConn =>
        let p := send_attempt_loop env rem (attempt + 1)
        (p.1, 5 :: p.2)
    | AttemptEnv.channelMissing => (some false, [])
    | AttemptEnv.sendOk => (some true, [])
    | AttemptEnv.connErr =>
        if attempt + 1 < 3 then
          let p := send_attempt_loop env rem (attempt + 1)
          (p.1, 5 :: p.2)
        else (some false, [])
    | AttemptEnv.forbidden => (some false, [])
    | AttemptEnv.notFound => (some false, [])
    | AttemptEnv.httpErr => (some false, [])
    | AttemptEnv.otherErr => (some false, [])

/-- DiscordBot.send_message_to_channel: run the attempt loop for
max_retries = 3 iterations starting at attempt 0. -/
def send_message_to_channel (env : Nat → AttemptEnv) : Option Bool × List Nat :=
  send_attempt_loop env 3 0

/-- A Python value passed to the wait_until_target_day setter. -/
inductive PyValue where
  | pyInt : Int → PyValue
  | pyNone : PyValue
  | pyStr : List Char → PyValue
  | pyFloat : PyValue
deriving DecidableEq, Repr

/-- The wait_until_target_day property setter: isinstance(value, int | None)
admits every int and None (no range check at all); anything else raises
TypeError, modelled as none. some v is the new field value. -/
def set_wait_until_target_day : PyValue → Option (Option Int)
  | PyValue.pyInt n => some (some n)
  | PyValue.pyNone => some none
  | _ => none

/-- TelegramBotController.process_day_number, after int(message.text) parsed
(parsed = none models the ValueError branch): the day is stored through the
setter only when 1 <= day <= 31, otherwise the state is left unchanged and
the user is re-prompted. Returns the new field value and whether it was set. -/
def process_day_number (parsed : Option Int) (st : Option Int) : Option Int × Bool :=
  match parsed with
  | none => (st, false)
  | some d => if 1 ≤ d ∧ d ≤ 31 then (some d, true) else (st, false)

/-- A persisted delayed-message record as read from delayed_messages.json:
id, absolute fire instant (seconds, zone-aware in the source), and the
file paths of its attachments (as abstract identifiers). -/
structure StoredMessage where
  msgId : Nat
  fireAt : Int
  attachments : List Nat
deriving DecidableEq, Repr

/-- The record loop of TelegramBotController.load_delayed_messages: a record
whose date_time <= current_time goes to the expired list (and is not stored),
every other record is stored. Returns (kept, expired) in record order. -/
def load_delayed_messages (now : Int) :
    List StoredMessage → List StoredMessage × List StoredMessage
  | [] => ([], [])
  | m :: ms =>
    let p := load_delayed_messages now ms
    if m.fireAt ≤ now then (p.1, m :: p.2) else (m :: p.1, p.2)

/-- TelegramBotController._cleanup_expired_messages: the attachment files
removed from disk are exactly the attachments of the expired records. -/
def cleanup_expired_files (expired : List StoredMessage) : List Nat :=
  expired.flatMap (fun m => m.attachments)

/-- TelegramBotController._restore_delayed_tasks: one wait task is created
per stored (kept) message, keyed by its id. -/
def restore_delayed_tasks (kept : List StoredMessage) : List Nat :=
  kept.map (fun m => m.msgId)

/-- The delayed-task registry of TelegramBotController: delayed_tasks maps a
message id to a task handle (a generation number drawn from nextGen);
cancelledGens records the handles on which Task.cancel was called. -/
structure TaskRegistry where
  tasks : List (Nat × Nat)
  nextGen : Nat
  cancelledGens : List Nat
deriving DecidableEq, Repr

/-- Dictionary lookup in delayed_tasks. -/
def find_task : List (Nat × Nat) → Nat → Option Nat
  | [], _ => none
  | p :: ps, i => if p.1 = i then some p.2 else find_task ps i

/-- Dictionary deletion (del self.delayed_tasks[message_id]). -/
def erase_task : List (Nat × Nat) → Nat → List (Nat × Nat)
  | [], _ => []
  | p :: ps, i => if p.1 = i then erase_task ps i else p :: erase_task ps i

/-- Number of registered tasks for one message id. -/
def count_tasks_for (ts : List (Nat × Nat)) (i : Nat) : Nat :=
  (ts.filter (fun p => decide (p.1 = i))).length

/-- The task handling of TelegramBotController.process_edit_delayed_datetime
after a successful parse of the new fire time: if a task is registered for
the id, cancel it and delete the entry; then create one fresh task for the
(updated) message and register it under the same id. -/
def process_edit_delayed_datetime (reg : TaskRegistry) (msgId : Nat) : TaskRegistry :=
  let afterCancel :=
    match find_task reg.tasks msgId with
    | some g =>
        TaskRegistry.mk (erase_task reg.tasks msgId) reg.nextGen (g :: reg.cancelledGens)
    | none => reg
  TaskRegistry.mk (afterCancel.tasks ++ [(msgId, reg.nextGen)]) (reg.nextGen + 1)
    afterCancel.cancelledGens

/-- Python str whitespace test restricted to the characters the splitters
meet: space, newline, tab, carriage return (the set str.rstrip strips). -/
def isWS (c : Char) : Bool :=
  decide (c = ' ' ∨ c = Char.ofNat 10 ∨ c = Char.ofNat 9 ∨ c = Char.ofNat 13)

/-- Python str.split(sep) for a one-character separator: n separators yield
n+1 pieces, empty pieces included. The result is never the empty list. -/
def splitOnChar (sep : Char) : List Char → List (List Char)
  | [] => [[]]
  | c :: cs =>
    match splitOnChar sep cs with
    | [] => [[]]
    | l :: ls => if c = sep then [] :: l :: ls else (c :: l) :: ls

/-- sep.join(pieces): the inverse of splitOnChar. -/
def joinSep (sep : Char) : List (List Char) → List Char
  | [] => []
  | [p] => p
  | p :: q :: ps => p ++ sep :: joinSep sep (q :: ps)

/-- Python str.rstrip(): drop trailing whitespace. -/
def rstrip (l : List Char) : List Char :=
  (l.reverse.dropWhile isWS).reverse

/-- One step (right fold) of splitting a text into its whitespace-delimited
words: the accumulator carries the word being built and the words found. -/
def wordsStep (c : Char) (acc : List Char × List (List Char)) :
    List Char × List (List Char) :=
  if isWS c then ([], if acc.1 = [] then acc.2 else acc.1 :: acc.2)
  else (c :: acc.1, acc.2)

/-- Close the accumulator of wordsStep. -/
def wordsFin (acc : List Char × List (List Char)) : List (List Char) :=
  if acc.1 = [] then acc.2 else acc.1 :: acc.2

/-- The whitespace-delimited words of a text, in order, none empty. This is
the observable the no-mid-word-split and reconstruction properties use. -/
def wordsOf (l : List Char) : List (List Char) :=
  wordsFin (l.foldr wordsStep ([], []))

/-- The helper append_part of DiscordBot._split_long_text: rstrip the piece
and append it only when something remains (Discord rejects empty messages). -/
def appendPart (parts : List (List Char)) (part : List Char) : List (List Char) :=
  let cleaned := rstrip part
  if cleaned = [] then parts else parts ++ [cleaned]

/-- Fuel-driven form of the while-loop of DiscordBot._split_long_text that
hard-splits a single word longer than the limit into limit-sized chunks,
returning the updated parts and the remainder. Each iteration removes
maxLen >= 1 characters, so fuel = w.length always suffices; at maxLen = 0
the Python loop does not terminate, the model stops instead. -/
def hardSplitFuel (maxLen : Nat) :
    Nat → List (List Char) → List Char → List (List Char) × List Char
  | 0, parts, w => (parts, w)
  | Nat.succ fuel, parts, w =>
    if maxLen < w.length ∧ 0 < maxLen then
      hardSplitFuel maxLen fuel (parts ++ [w.take maxLen]) (w.drop maxLen)
    else (parts, w)

/-- The while-loop of DiscordBot._split_long_text, run to completion. -/
def hardSplitLoop (maxLen : Nat) (parts : List (List Char)) (w : List Char) :
    List (List Char) × List Char :=
  hardSplitFuel maxLen w.length parts w

theorem hardSplitLoop_small (maxLen : Nat) (parts : List (List Char))
    (w : List Char) (h : w.length ≤ maxLen) :
    hardSplitLoop maxLen parts w = (parts, w) := by
  unfold hardSplitLoop
  cases hl : w.length with
  | zero => rfl
  | succ n =>
    unfold hardSplitFuel
    rw [if_neg (by omega)]

/-- The word loop of DiscordBot._split_long_text for one overlong line:
candidate = word + " "; flush temp_line when it cannot take the candidate;
append the candidate when it fits the limit on its own, otherwise hard-split
the word and keep its remainder (plus a space) as the new temp_line. -/
def processWords (maxLen : Nat) :
    List (List Char) → List (List Char) → List Char → List (List Char) × List Char
  | [], parts, temp => (parts, temp)
  | w :: ws, parts, temp =>
    let candidate := w ++ [' ']
    let flushed :=
      if maxLen < (temp ++ candidate).length ∧ temp ≠ [] then
        (appendPart parts temp, ([] : List Char))
      else (parts, temp)
    if candidate.length ≤ maxLen then
      processWords maxLen ws flushed.1 (flushed.2 ++ candidate)
    else
      let hs := hardSplitLoop maxLen flushed.1 w
      processWords maxLen ws hs.1 (if hs.2 = [] then flushed.2 else hs.2 ++ [' '])

/-- The line loop body of DiscordBot._split_long_text: an overlong line is
flushed-then-word-split; a fitting line is appended to current_part with a
newline when the sum stays within the limit, else current_part is flushed
and the line starts a new current_part. -/
def processLine (maxLen : Nat) (acc : List (List Char) × List Char)
    (line : List Char) : List (List Char) × List Char :=
  if maxLen < line.length then
    let parts1 := if acc.2 = [] then acc.1 else appendPart acc.1 acc.2
    processWords maxLen (splitOnChar ' ' line) parts1 []
  else
    if (acc.2 ++ line ++ [Char.ofNat 10]).length ≤ maxLen then
      (acc.1, acc.2 ++ line ++ [Char.ofNat 10])
    else
      let parts1 := if acc.2 = [] then acc.1 else appendPart acc.1 acc.2
      (parts1, line ++ [Char.ofNat 10])

/-- DiscordBot._split_long_text: texts within the limit pass through whole;
otherwise split into newline-delimited lines, fold processLine over them,
flush the last current_part, and fall back to [text[:maxLen]] when nothing
was collected. -/
def split_long_text (text : List Char) (maxLen : Nat) : List (List Char) :=
  if text.length ≤ maxLen then [text]
  else
    let st := (splitOnChar (Char.ofNat 10) text).foldl (processLine maxLen) ([], [])
    let parts := if st.2 = [] then st.1 else appendPart st.1 st.2
    if parts = [] then [text.take maxLen] else parts

/-- The word loop of TelegramBotController.split_long_text: no hard split —
a word that does not fit simply becomes the new temp_line, however long. -/
def processWordsTg (maxLen : Nat) :
    List (List Char) → List (List Char) → List Char → List (List Char) × List Char
  | [], parts, temp => (parts, temp)
  | w :: ws, parts, temp =>
    if (temp ++ w ++ [' ']).length ≤ maxLen then
      processWordsTg maxLen ws parts (temp ++ w ++ [' '])
    else
      let parts1 := if temp = [] then parts else parts ++ [rstrip temp]
      processWordsTg maxLen ws parts1 (w ++ [' '])

/-- The line loop body of TelegramBotController.split_long_text: as the
Discord variant, but parts are appended rstripped without the emptiness
guard of append_part. -/
def processLineTg (maxLen : Nat) (acc : List (List Char) × List Char)
    (line : List Char) : List (List Char) × List Char :=
  if maxLen < line.length then
    let parts1 := if acc.2 = [] then acc.1 else acc.1 ++ [rstrip acc.2]
    processWordsTg maxLen (splitOnChar ' ' line) parts1 []
  else
    if (acc.2 ++ line ++ [Char.ofNat 10]).length ≤ maxLen then
      (acc.1, acc.2 ++ line ++ [Char.ofNat 10])
    else
      let parts1 := if acc.2 = [] then acc.1 else acc.1 ++ [rstrip acc.2]
      (parts1, line ++ [Char.ofNat 10])

/-- TelegramBotController.split_long_text (unused by the send paths, which
call the Discord variant). -/
def split_long_text_tg (text : List Char) (maxLen : Nat) : List (List Char) :=
  if text.length ≤ maxLen then [text]
  else
    let st := (splitOnChar (Char.ofNat 10) text).foldl (processLineTg maxLen) ([], [])
    let parts := if st.2 = [] then st.1 else st.1 ++ [rstrip st.2]
    if parts = [] then [text.take maxLen] else parts

theorem get_random_range_spec (st et : Tod) (r : Nat)
    (h : todToSecs st + 3 ≤ todToSecs et) :
    ∃ t, get_random_time_in_range st et r = some t
      ∧ todToSecs st + 3 ≤ todToSecs t ∧ todToSecs t ≤ todToSecs et := by
  unfold get_random_time_in_range pyRandint
  have hlt : ¬ (todToSecs et ≤ todToSecs st) := by omega
  rw [if_neg hlt, if_pos (by omega : todToSecs st + 3 ≤ todToSecs et)]
  refine ⟨todOfSecs (todToSecs st + 3 + r % (todToSecs et - (todToSecs st + 3) + 1)),
    rfl, ?_, ?_⟩
  · rw [todToSecs_todOfSecs]
    omega
  · rw [todToSecs_todOfSecs]
    have hm : r % (todToSecs et - (todToSecs st + 3) + 1)
        < todToSecs et - (todToSecs st + 3) + 1 := Nat.mod_lt _ (by omega)
    omega

/-- C2, amended: when lowerBound >= window.end the picker returns exactly
window.end; when lowerBound + 3 <= window.end it returns a value of
[lowerBound + 3, window.end] and every value of that range is reached by
some draw; but when 0 < window.end - lowerBound < 3 the call
random.randint(lowerBound + 3, window.end) has an empty range and raises
ValueError — the function is not total, contrary to the claim. -/
theorem c2_theorem (st et : Tod) (r : Nat) :
    (todToSecs et ≤ todToSecs st →
      get_random_time_in_range st et r = some (todOfSecs (todToSecs et)))
    ∧ (todToSecs st + 3 ≤ todToSecs et →
        ∃ t, get_random_time_in_range st et r = some t
          ∧ todToSecs st + 3 ≤ todToSecs t ∧ todToSecs t ≤ todToSecs et)
    ∧ (todToSecs st < todToSecs et → todToSecs et < todToSecs st + 3 →
        get_random_time_in_range st et r = none)
    ∧ (∀ v, todToSecs st + 3 ≤ v → v ≤ todToSecs et →
        ∃ rr, get_random_time_in_range st et rr = some (todOfSecs v)) := by
  refine ⟨?_, fun h => get_random_range_spec st et r h, ?_, ?_⟩
  · intro h
    unfold get_random_time_in_range
    rw [if_pos h]
  · intro h1 h2
    unfold get_random_time_in_range pyRandint
    rw [if_neg (by omega), if_neg (by omega)]
    rfl
  · intro v hv1 hv2
    refine ⟨v - (todToSecs st + 3), ?_⟩
    unfold get_random_time_in_range pyRandint
    rw [if_neg (by omega), if_pos (by omega)]
    have hmod : (v - (todToSecs st + 3)) % (todToSecs et - (todToSecs st + 3) + 1)
        = v - (todToSecs st + 3) := Nat.mod_eq_of_lt (by omega)
    have harg : todToSecs st + 3
        + (v - (todToSecs st + 3)) % (todToSecs et - (todToSecs st + 3) + 1) = v := by
      rw [hmod]
      omega
    rw [harg]
    rfl

/-- C2, counterexample to the claim as stated: lowerBound 10:30:00 does not
exceed window.end 10:30:01, yet the picker fails (randint gets an empty
range and raises ValueError) instead of returning a time of the interval. -/
theorem c2_counterexample :
    todToSecs (Tod.mk 10 30 0) ≤ todToSecs (Tod.mk 10 30 1)
    ∧ get_random_time_in_range (Tod.mk 10 30 0) (Tod.mk 10 30 1) 0 = none := by
  constructor
  · decide
  · decide

theorem c2_witness :
    (∃ t, get_random_time_in_range (Tod.mk 10 30 5) (Tod.mk 12 0 0) 1234 = some t
      ∧ todToSecs (Tod.mk 10 30 5) + 3 ≤ todToSecs t
      ∧ todToSecs t ≤ todToSecs (Tod.mk 12 0 0))
    ∧ get_random_time_in_range (Tod.mk 12 0 0) (Tod.mk 11 0 0) 5
        = some (todOfSecs (todToSecs (Tod.mk 11 0 0))) := by
  constructor
  · exact (c2_theorem (Tod.mk 10 30 5) (Tod.mk 12 0 0) 1234).2.1 (by decide)
  · exact (c2_theorem (Tod.mk 12 0 0) (Tod.mk 11 0 0) 5).1 (by decide)

/-- C3, amended: for a deferred day of 1..31 the computed target is that
day-of-month at window start, in the current month unless the day has
already passed this month, equals today with window start already passed,
or does not exist in the current month (then the next month); but the
construction fails (datetime raises ValueError) exactly when the chosen
target month does not contain that day — the computation is not total. -/
theorem c3_theorem (day : Nat) (startTime : Tod) (now : PyDateTime) (ty tm : Nat)
    (hday : 1 ≤ day ∧ day ≤ 31)
    (hy : 1 ≤ now.year ∧ now.year + 1 ≤ 9999)
    (hm : 1 ≤ now.month ∧ now.month ≤ 12)
    (hst : startTime.hour < 24 ∧ startTime.minute < 60 ∧ startTime.second < 60)
    (hty : ty =
      (if day < now.day
          ∨ (day = now.day
              ∧ todToSecs startTime ≤ todToSecs (Tod.mk now.hour now.minute now.second))
          ∨ (now.day < day ∧ daysInMonth now.year now.month < day) then
        (if now.month < 12 then now.year else now.year + 1)
      else now.year))
    (htm : tm =
      (if day < now.day
          ∨ (day = now.day
              ∧ todToSecs startTime ≤ todToSecs (Tod.mk now.hour now.minute now.second))
          ∨ (now.day < day ∧ daysInMonth now.year now.month < day) then
        (if now.month < 12 then now.month + 1 else 1)
      else now.month)) :
    calculate_wait_until_target_date (some day) startTime now =
      (if day ≤ daysInMonth ty tm then
        some (PyDateTime.mk ty tm day startTime.hour startTime.minute startTime.second)
      else none) := by
  subst hty
  subst htm
  simp only [calculate_wait_until_target_date, mkPyDateTime]
  split_ifs <;> first
    | rfl
    | (exfalso; omega)

/-- C3, counterexample to the claim as stated: on January 31st 2025 at noon
a deferred day of 30 (a valid 1..31 value) rolls to February, and
datetime(2025, 2, 30, ...) raises ValueError — the computation fails. -/
theorem c3_counterexample :
    1 ≤ 30 ∧ 30 ≤ 31
    ∧ calculate_wait_until_target_date (some 30) (Tod.mk 10 30 0)
        (PyDateTime.mk 2025 1 31 12 0 0) = none := by
  refine ⟨by decide, by decide, by decide⟩

theorem c3_witness :
    calculate_wait_until_target_date (some 15) (Tod.mk 10 30 0)
      (PyDateTime.mk 2025 3 20 11 0 0)
      = some (PyDateTime.mk 2025 4 15 10 30 0) := by
  have h := c3_theorem 15 (Tod.mk 10 30 0) (PyDateTime.mk 2025 3 20 11 0 0) 2025 4
    (by decide) (by decide) (by decide) (by decide) (by decide) (by decide)
  rw [h]
  decide

/-- C9, amended: the one-day shift happens exactly when the target is
strictly before the current instant (a target equal to the current instant
is not shifted and yields a zero wait, returning at once), and the computed
sleep is non-negative only when the target lies within the last 24 hours —
an older target still produces a negative sleep. -/
theorem c9_theorem (cur next : Int) :
    (next < cur →
      wait_shift_target cur next = next + 86400
      ∧ (cur ≤ next + 86400 → 0 ≤ wait_seconds cur next)
      ∧ (next + 86400 < cur → wait_seconds cur next < 0))
    ∧ (cur ≤ next → wait_shift_target cur next = next ∧ 0 ≤ wait_seconds cur next) := by
  unfold wait_seconds wait_shift_target
  constructor
  · intro h
    rw [if_pos h]
    refine ⟨rfl, ?_, ?_⟩ <;> intro h2 <;> omega
  · intro h
    rw [if_neg (by omega)]
    exact ⟨rfl, by omega⟩

/-- C9, counterexample to the claim as stated: a target exactly equal to
the current instant is not after it, yet it is not shifted by one day and
the sleep is zero (the function returns immediately); and a target more
than one day in the past yields a negative sleep even after the shift. -/
theorem c9_counterexample :
    wait_shift_target 86400 86400 = 86400
    ∧ wait_shift_target 86400 86400 ≠ 86400 + 86400
    ∧ wait_seconds 86400 86400 = 0
    ∧ wait_seconds 259200 0 < 0 := by
  refine ⟨by decide, by decide, by decide, by decide⟩

theorem c9_witness :
    wait_shift_target 100 40 = 40 + 86400 ∧ 0 ≤ wait_seconds 100 40 := by
  have h := (c9_theorem 100 40).1 (by decide)
  exact ⟨h.1, h.2.1 (by decide)⟩

/-- C10: the wait_until_target_day setter accepts every int (also outside
1..31) and None, and raises TypeError exactly on any other value; the 1..31
range is enforced only by process_day_number in the control surface, which
leaves the state unchanged on an out-of-range or unparsable day. -/
theorem c10_theorem :
    (∀ n : Int, set_wait_until_target_day (PyValue.pyInt n) = some (some n))
    ∧ set_wait_until_target_day PyValue.pyNone = some none
    ∧ (∀ s, set_wait_until_target_day (PyValue.pyStr s) = none)
    ∧ set_wait_until_target_day PyValue.pyFloat = none
    ∧ (∀ st d, (process_day_number (some d) st).2 = true ↔ (1 ≤ d ∧ d ≤ 31))
    ∧ (∀ st d, ¬ (1 ≤ d ∧ d ≤ 31) → process_day_number (some d) st = (st, false))
    ∧ (∀ st, process_day_number none st = (st, false)) := by
  refine ⟨fun n => rfl, rfl, fun s => rfl, rfl, ?_, ?_, fun st => rfl⟩
  · intro st d
    by_cases h : 1 ≤ d ∧ d ≤ 31
    · simp [process_day_number, h]
    · simp [process_day_number, h]
  · intro st d h
    simp [process_day_number, h]

theorem c10_witness :
    set_wait_until_target_day (PyValue.pyInt 99) = some (some 99)
    ∧ process_day_number (some 99) none = (none, false) := by
  exact ⟨c10_theorem.1 99, c10_theorem.2.2.2.2.2.1 none 99 (by decide)⟩

/-- C7: the recurring scheduler loop continues after every non-cancellation
error with a fixed 300-second (5-minute) cooldown, continues at once after a
normal iteration, exits only on cancellation, and — fed any outcome
sequence — terminates exactly when that sequence contains a cancellation. -/
theorem c7_theorem :
    (∀ e, message_scheduler_step (IterOutcome.error e) = StepResult.continueLoop 300)
    ∧ message_scheduler_step IterOutcome.cancelled = StepResult.exitLoop
    ∧ message_scheduler_step IterOutcome.ok = StepResult.continueLoop 0
    ∧ (∀ os, message_scheduler_stops os = true ↔ IterOutcome.cancelled ∈ os) := by
  refine ⟨fun e => rfl, rfl, rfl, ?_⟩
  intro os
  induction os with
  | nil => simp [message_scheduler_stops]
  | cons o os ih =>
    cases o <;>
      simp [message_scheduler_stops, message_scheduler_step, ih]

theorem c7_witness :
    message_scheduler_step (IterOutcome.error 7) = StepResult.continueLoop 300
    ∧ message_scheduler_stops [IterOutcome.error 7, IterOutcome.cancelled] = true
    ∧ message_scheduler_stops [IterOutcome.error 7, IterOutcome.ok] = false := by
  refine ⟨c7_theorem.1 7, (c7_theorem.2.2.2 _).mpr (by decide), ?_⟩
  have h := c7_theorem.2.2.2 [IterOutcome.error 7, IterOutcome.ok]
  cases hs : message_scheduler_stops [IterOutcome.error 7, IterOutcome.ok] with
  | false => rfl
  | true => exact absurd (h.mp hs) (by decide)

/-- C8: the send operation's retry structure — a connection error is
retried with a fixed 5-second delay and surfaces as False on the third
attempt; Forbidden and NotFound are not retried and yield False at once; a
success yields True; but when the connection reports closed on all three
attempts the for-loop is exhausted and the function returns None (Python's
implicit return), not a boolean — contradicting its declared bool contract. -/
theorem c8_theorem :
    send_message_to_channel (fun _ => AttemptEnv.connErr) = (some false, [5, 5])
    ∧ send_message_to_channel (fun _ => AttemptEnv.forbidden) = (some false, [])
    ∧ send_message_to_channel (fun _ => AttemptEnv.notFound) = (some false, [])
    ∧ send_message_to_channel (fun _ => AttemptEnv.httpErr) = (some false, [])
    ∧ send_message_to_channel (fun _ => AttemptEnv.sendOk) = (some true, [])
    ∧ send_message_to_channel (fun _ => AttemptEnv.channelMissing) = (some false, [])
    ∧ send_message_to_channel (fun _ => AttemptEnv.closedConn) = (none, [5, 5, 5]) := by
  refine ⟨rfl, rfl, rfl, rfl, rfl, rfl, rfl⟩

/-- C1, amended: with the recurring send disabled at fire time, the send is
skipped (no effect reaches the sender) and _next_target_time is regenerated
from floor = window.start for the next day, but _was_sent_today is left
unchanged (it is not set — only an enabled fire sets it). -/
theorem c1_theorem (st : SchedState) (cid : Int) (wstart wend : Tod) (r : Nat)
    (hdis : st.is_mark_enabled = false)
    (hwin : todToSecs wstart + 3 ≤ todToSecs wend) :
    ∃ st2 t, handle_workday_fire st cid wstart wend r = some (st2, [])
      ∧ st2.was_sent_today = st.was_sent_today
      ∧ st2.is_mark_enabled = st.is_mark_enabled
      ∧ st2.chat_channel_message = st.chat_channel_message
      ∧ st2.next_target_time = some t
      ∧ todToSecs wstart + 3 ≤ todToSecs t ∧ todToSecs t ≤ todToSecs wend := by
  obtain ⟨t, hget, hlo, hhi⟩ := get_random_range_spec wstart wend r hwin
  refine ⟨{ st with next_target_time := some t }, t, ?_, rfl, rfl, rfl, rfl, hlo, hhi⟩
  unfold handle_workday_fire send_scheduled_message
  rw [hdis]
  simp only [Bool.false_eq_true, if_false, hget]
  simp [hdis]

/-- C1, counterexample to the claim as stated: enabled = false at fire
time; the send is skipped and the fire time regenerated, but the resulting
_was_sent_today is false, not the set flag the claim asserts. -/
theorem c1_counterexample :
    handle_workday_fire (SchedState.mk false false [] none) 1
        (Tod.mk 10 30 0) (Tod.mk 12 0 0) 0
      = some (SchedState.mk false false [] (some (Tod.mk 10 30 3)), [])
    ∧ (SchedState.mk false false [] (some (Tod.mk 10 30 3))).was_sent_today ≠ true := by
  refine ⟨by decide, by decide⟩

theorem c1_witness :
    ∃ st2 t, handle_workday_fire (SchedState.mk false true ['+'] (some (Tod.mk 11 0 0))) 5
        (Tod.mk 10 30 0) (Tod.mk 12 0 0) 42 = some (st2, [])
      ∧ st2.was_sent_today
          = (SchedState.mk false true ['+'] (some (Tod.mk 11 0 0))).was_sent_today
      ∧ st2.is_mark_enabled
          = (SchedState.mk false true ['+'] (some (Tod.mk 11 0 0))).is_mark_enabled
      ∧ st2.chat_channel_message
          = (SchedState.mk false true ['+'] (some (Tod.mk 11 0 0))).chat_channel_message
      ∧ st2.next_target_time = some t
      ∧ todToSecs (Tod.mk 10 30 0) + 3 ≤ todToSecs t
      ∧ todToSecs t ≤ todToSecs (Tod.mk 12 0 0) := by
  exact c1_theorem (SchedState.mk false true ['+'] (some (Tod.mk 11 0 0))) 5
    (Tod.mk 10 30 0) (Tod.mk 12 0 0) 42 rfl (by decide)

theorem load_eq_filter (now : Int) (l : List StoredMessage) :
    load_delayed_messages now l =
      (l.filter (fun m => decide (now < m.fireAt)),
       l.filter (fun m => decide (m.fireAt ≤ now))) := by
  induction l with
  | nil => rfl
  | cons m ms ih =>
    simp only [load_delayed_messages, ih, List.filter]
    by_cases h : m.fireAt ≤ now
    · have h2 : ¬ (now < m.fireAt) := by omega
      simp [h, h2]
    · have h2 : now < m.fireAt := by omega
      simp [h, h2]

/-- C5: on load, a record fires strictly later than the current instant if
and only if it is kept (and every kept record gets a restored wait task);
a record whose fire instant is not in the future goes to the expired list,
gets no task, and all its attachment files are deleted. -/
theorem c5_theorem (now : Int) (records : List StoredMessage)
    (hids : records.Pairwise (fun a b => a.msgId ≠ b.msgId)) :
    (∀ m ∈ records, (now < m.fireAt ↔ m ∈ (load_delayed_messages now records).1))
    ∧ (∀ m ∈ records, (m.fireAt ≤ now ↔ m ∈ (load_delayed_messages now records).2))
    ∧ (∀ m ∈ (load_delayed_messages now records).1,
        m.msgId ∈ restore_delayed_tasks (load_delayed_messages now records).1
        ∧ now < m.fireAt)
    ∧ (∀ m ∈ (load_delayed_messages now records).2,
        m.fireAt ≤ now
        ∧ m.msgId ∉ restore_delayed_tasks (load_delayed_messages now records).1
        ∧ ∀ f ∈ m.attachments,
            f ∈ cleanup_expired_files (load_delayed_messages now records).2) := by
  rw [load_eq_filter]
  simp only [restore_delayed_tasks, cleanup_expired_files]
  refine ⟨?_, ?_, ?_, ?_⟩
  · intro m hm
    constructor
    · intro h
      exact List.mem_filter.mpr ⟨hm, by simpa using h⟩
    · intro h
      simpa using (List.mem_filter.mp h).2
  · intro m hm
    constructor
    · intro h
      exact List.mem_filter.mpr ⟨hm, by simpa using h⟩
    · intro h
      simpa using (List.mem_filter.mp h).2
  · intro m hm
    refine ⟨List.mem_map.mpr ⟨m, hm, rfl⟩, by simpa using (List.mem_filter.mp hm).2⟩
  · intro m hm
    have hexp : m.fireAt ≤ now := by simpa using (List.mem_filter.mp hm).2
    have hmrec : m ∈ records := (List.mem_filter.mp hm).1
    refine ⟨hexp, ?_, ?_⟩
    · intro hmem
      obtain ⟨k, hk, hkid⟩ := List.mem_map.mp hmem
      have hkkept : now < k.fireAt := by simpa using (List.mem_filter.mp hk).2
      have hkrec : k ∈ records := (List.mem_filter.mp hk).1
      have hne : k ≠ m := by
        intro he
        rw [he] at hkkept
        omega
      exact (hids.forall (fun a b hab => (Ne.symm hab)) hkrec hmrec hne) hkid
    · intro f hf
      exact List.mem_flatMap.mpr ⟨m, hm, hf⟩

theorem c5_witness :
    StoredMessage.mk 2 300 [20]
        ∈ (load_delayed_messages 200 [StoredMessage.mk 1 100 [10], StoredMessage.mk 2 300 [20]]).1
    ∧ StoredMessage.mk 1 100 [10]
        ∈ (load_delayed_messages 200 [StoredMessage.mk 1 100 [10], StoredMessage.mk 2 300 [20]]).2
    ∧ 2 ∈ restore_delayed_tasks
        (load_delayed_messages 200 [StoredMessage.mk 1 100 [10], StoredMessage.mk 2 300 [20]]).1
    ∧ 1 ∉ restore_delayed_tasks
        (load_delayed_messages 200 [StoredMessage.mk 1 100 [10], StoredMessage.mk 2 300 [20]]).1
    ∧ 10 ∈ cleanup_expired_files
        (load_delayed_messages 200 [StoredMessage.mk 1 100 [10], StoredMessage.mk 2 300 [20]]).2 := by
  have h := c5_theorem 200 [StoredMessage.mk 1 100 [10], StoredMessage.mk 2 300 [20]]
    (by simp [List.pairwise_cons])
  refine ⟨(h.1 (StoredMessage.mk 2 300 [20]) (by simp)).mp (by decide),
    (h.2.1 (StoredMessage.mk 1 100 [10]) (by simp)).mp (by decide), ?_, ?_, ?_⟩
  · have hk := (h.1 (StoredMessage.mk 2 300 [20]) (by simp)).mp (by decide)
    exact (h.2.2.1 (StoredMessage.mk 2 300 [20]) hk).1
  · have he := (h.2.1 (StoredMessage.mk 1 100 [10]) (by simp)).mp (by decide)
    exact (h.2.2.2 (StoredMessage.mk 1 100 [10]) he).2.1
  · have he := (h.2.1 (StoredMessage.mk 1 100 [10]) (by simp)).mp (by decide)
    exact (h.2.2.2 (StoredMessage.mk 1 100 [10]) he).2.2 10 (by simp)

theorem count_tasks_nil (i : Nat) : count_tasks_for [] i = 0 := rfl

theorem count_tasks_cons (p : Nat × Nat) (ps : List (Nat × Nat)) (i : Nat) :
    count_tasks_for (p :: ps) i =
      (if p.1 = i then 1 else 0) + count_tasks_for ps i := by
  unfold count_tasks_for
  by_cases h : p.1 = i
  · simp [List.filter, h]
    omega
  · simp [List.filter, h]

theorem count_tasks_append (a b : List (Nat × Nat)) (i : Nat) :
    count_tasks_for (a ++ b) i = count_tasks_for a i + count_tasks_for b i := by
  unfold count_tasks_for
  rw [List.filter_append, List.length_append]

theorem count_tasks_singleton (j g i : Nat) :
    count_tasks_for [(j, g)] i = if j = i then 1 else 0 := by
  rw [count_tasks_cons, count_tasks_nil]
  simp

theorem find_task_cons (p : Nat × Nat) (ps : List (Nat × Nat)) (i : Nat) :
    find_task (p :: ps) i = if p.1 = i then some p.2 else find_task ps i := rfl

theorem find_task_singleton (j g i : Nat) :
    find_task [(j, g)] i = if j = i then some g else none := rfl

theorem find_task_none_of_count_zero (ts : List (Nat × Nat)) (i : Nat)
    (h : count_tasks_for ts i = 0) : find_task ts i = none := by
  induction ts with
  | nil => rfl
  | cons p ps ih =>
    rw [count_tasks_cons] at h
    rw [find_task_cons]
    by_cases hp : p.1 = i
    · rw [if_pos hp] at h
      omega
    · rw [if_neg hp] at h
      rw [if_neg hp]
      exact ih (by omega)

theorem count_zero_of_find_task_none (ts : List (Nat × Nat)) (i : Nat)
    (h : find_task ts i = none) : count_tasks_for ts i = 0 := by
  induction ts with
  | nil => rfl
  | cons p ps ih =>
    rw [find_task_cons] at h
    rw [count_tasks_cons]
    by_cases hp : p.1 = i
    · rw [if_pos hp] at h
      exact absurd h (by simp)
    · rw [if_neg hp] at h
      rw [if_neg hp, ih h]

theorem count_erase_self (ts : List (Nat × Nat)) (i : Nat) :
    count_tasks_for (erase_task ts i) i = 0 := by
  induction ts with
  | nil => rfl
  | cons p ps ih =>
    unfold erase_task
    by_cases hp : p.1 = i
    · rw [if_pos hp]
      exact ih
    · rw [if_neg hp, count_tasks_cons, if_neg hp, ih]

theorem count_erase_other (ts : List (Nat × Nat)) (i j : Nat) (hne : j ≠ i) :
    count_tasks_for (erase_task ts i) j = count_tasks_for ts j := by
  induction ts with
  | nil => rfl
  | cons p ps ih =>
    unfold erase_task
    by_cases hp : p.1 = i
    · rw [if_pos hp, ih, count_tasks_cons, if_neg (by omega), Nat.zero_add]
    · rw [if_neg hp, count_tasks_cons, count_tasks_cons, ih]

theorem find_task_erase_other (ts : List (Nat × Nat)) (i j : Nat) (hne : j ≠ i) :
    find_task (erase_task ts i) j = find_task ts j := by
  induction ts with
  | nil => rfl
  | cons p ps ih =>
    unfold erase_task
    by_cases hp : p.1 = i
    · rw [if_pos hp, ih, find_task_cons, if_neg (by omega)]
    · rw [if_neg hp, find_task_cons, find_task_cons, ih]

theorem find_task_append_of_none (a b : List (Nat × Nat)) (i : Nat)
    (h : find_task a i = none) : find_task (a ++ b) i = find_task b i := by
  induction a with
  | nil => rfl
  | cons p ps ih =>
    rw [find_task_cons] at h
    rw [List.cons_append, find_task_cons]
    by_cases hp : p.1 = i
    · rw [if_pos hp] at h
      exact absurd h (by simp)
    · rw [if_neg hp] at h
      rw [if_neg hp]
      exact ih h

theorem find_task_append_of_some (a b : List (Nat × Nat)) (i g : Nat)
    (h : find_task a i = some g) : find_task (a ++ b) i = some g := by
  induction a with
  | nil => exact absurd h (by simp [find_task])
  | cons p ps ih =>
    rw [find_task_cons] at h
    rw [List.cons_append, find_task_cons]
    by_cases hp : p.1 = i
    · rw [if_pos hp] at h
      rw [if_pos hp]
      exact h
    · rw [if_neg hp] at h
      rw [if_neg hp]
      exact ih h

theorem pairwise_count_le_one (ts : List (Nat × Nat))
    (h : ts.Pairwise (fun a b => a.1 ≠ b.1)) (i : Nat) :
    count_tasks_for ts i ≤ 1 := by
  induction ts with
  | nil => simp [count_tasks_nil]
  | cons p ps ih =>
    rw [List.pairwise_cons] at h
    rw [count_tasks_cons]
    by_cases hp : p.1 = i
    · rw [if_pos hp]
      have hzero : count_tasks_for ps i = 0 := by
        unfold count_tasks_for
        rw [List.filter_eq_nil_iff.mpr (by
          intro q hq
          have := h.1 q hq
          simp only [decide_eq_true_eq]
          omega)]
        rfl
      omega
    · rw [if_neg hp]
      have := ih h.2
      omega

/-- C6: editing a delayed message's fire time cancels the previously
registered wait task (its handle lands in the cancelled set), registers
exactly one fresh task for that id, keeps at most one registered task per
id, and leaves every other id's task untouched. -/
theorem c6_theorem (reg : TaskRegistry) (msgId : Nat)
    (hinv : reg.tasks.Pairwise (fun a b => a.1 ≠ b.1)) :
    find_task (process_edit_delayed_datetime reg msgId).tasks msgId = some reg.nextGen
    ∧ count_tasks_for (process_edit_delayed_datetime reg msgId).tasks msgId = 1
    ∧ (∀ g, find_task reg.tasks msgId = some g →
        g ∈ (process_edit_delayed_datetime reg msgId).cancelledGens)
    ∧ (∀ i, count_tasks_for (process_edit_delayed_datetime reg msgId).tasks i ≤ 1)
    ∧ (∀ i, i ≠ msgId →
        find_task (process_edit_delayed_datetime reg msgId).tasks i
          = find_task reg.tasks i) := by
  cases hf : find_task reg.tasks msgId with
  | some g =>
    simp only [process_edit_delayed_datetime, hf]
    refine ⟨?_, ?_, ?_, ?_, ?_⟩
    · rw [find_task_append_of_none _ _ _ (find_task_none_of_count_zero _ _
        (count_erase_self reg.tasks msgId)), find_task_singleton, if_pos rfl]
    · rw [count_tasks_append, count_erase_self, count_tasks_singleton, if_pos rfl]
    · intro g2 hg2
      have hgg : g = g2 := by
        injection hg2
      rw [hgg.symm]
      exact List.mem_cons_self _ _
    · intro i
      rw [count_tasks_append, count_tasks_singleton]
      by_cases hi : i = msgId
      · rw [hi, count_erase_self, if_pos rfl]
      · rw [count_erase_other _ _ _ hi, if_neg (by omega)]
        have := pairwise_count_le_one reg.tasks hinv i
        omega
    · intro i hi
      cases hfi : find_task reg.tasks i with
      | some gi =>
        rw [find_task_append_of_some _ [(msgId, reg.nextGen)] i gi
          ((find_task_erase_other reg.tasks msgId i hi).trans hfi)]
      | none =>
        rw [find_task_append_of_none _ _ _
          ((find_task_erase_other reg.tasks msgId i hi).trans hfi),
          find_task_singleton, if_neg (by omega)]
  | none =>
    simp only [process_edit_delayed_datetime, hf]
    refine ⟨?_, ?_, ?_, ?_, ?_⟩
    · rw [find_task_append_of_none _ _ _ hf, find_task_singleton, if_pos rfl]
    · rw [count_tasks_append, count_zero_of_find_task_none _ _ hf,
        count_tasks_singleton, if_pos rfl]
    · intro g2 hg2
      exact absurd hg2 (by simp)
    · intro i
      rw [count_tasks_append, count_tasks_singleton]
      by_cases hi : i = msgId
      · rw [hi, count_zero_of_find_task_none _ _ hf, if_pos rfl]
      · rw [if_neg (by omega)]
        have := pairwise_count_le_one reg.tasks hinv i
        omega
    · intro i hi
      cases hfi : find_task reg.tasks i with
      | some gi =>
        rw [find_task_append_of_some _ [(msgId, reg.nextGen)] i gi hfi]
      | none =>
        rw [find_task_append_of_none _ _ _ hfi,
          find_task_singleton, if_neg (by omega)]

theorem c6_witness :
    find_task (process_edit_delayed_datetime
        (TaskRegistry.mk [(1, 0), (2, 1)] 2 []) 1).tasks 1 = some 2
    ∧ count_tasks_for (process_edit_delayed_datetime
        (TaskRegistry.mk [(1, 0), (2, 1)] 2 []) 1).tasks 1 = 1
    ∧ 0 ∈ (process_edit_delayed_datetime
        (TaskRegistry.mk [(1, 0), (2, 1)] 2 []) 1).cancelledGens
    ∧ find_task (process_edit_delayed_datetime
        (TaskRegistry.mk [(1, 0), (2, 1)] 2 []) 1).tasks 2 = some 1 := by
  have h := c6_theorem (TaskRegistry.mk [(1, 0), (2, 1)] 2 []) 1
    (by simp [List.pairwise_cons])
  refine ⟨h.1, h.2.1, h.2.2.1 0 (by decide), ?_⟩
  rw [h.2.2.2.2 2 (by decide)]
  decide

theorem isWS_space : isWS ' ' = true := by decide

theorem isWS_nl : isWS (Char.ofNat 10) = true := by decide

theorem splitOnChar_ne_nil (sep : Char) (l : List Char) : splitOnChar sep l ≠ [] := by
  cases l with
  | nil => simp [splitOnChar]
  | cons c cs =>
    simp only [splitOnChar]
    cases hs : splitOnChar sep cs with
    | nil => simp
    | cons a as =>
      by_cases h : c = sep <;> simp [h]

theorem splitOnChar_cons_eq (sep c : Char) (cs : List Char) (a : List Char)
    (as : List (List Char)) (hs : splitOnChar sep cs = a :: as) :
    splitOnChar sep (c :: cs)
      = if c = sep then [] :: a :: as else (c :: a) :: as := by
  simp only [splitOnChar, hs]

theorem joinSep_splitOnChar (sep : Char) (l : List Char) :
    joinSep sep (splitOnChar sep l) = l := by
  induction l with
  | nil => rfl
  | cons c cs ih =>
    cases hs : splitOnChar sep cs with
    | nil => exact absurd hs (splitOnChar_ne_nil sep cs)
    | cons a as =>
      rw [hs] at ih
      rw [splitOnChar_cons_eq sep c cs a as hs]
      by_cases h : c = sep
      · rw [if_pos h]
        simp only [joinSep]
        rw [ih, h]
        rfl
      · rw [if_neg h]
        cases as with
        | nil =>
          simp only [joinSep] at ih ⊢
          rw [ih]
        | cons b bs =>
          simp only [joinSep] at ih ⊢
          rw [List.cons_append, ih]

theorem mem_splitOnChar (sep : Char) (l : List Char) :
    ∀ w ∈ splitOnChar sep l, ∀ c ∈ w, c ∈ l ∧ c ≠ sep := by
  induction l with
  | nil =>
    intro w hw c hc
    simp [splitOnChar] at hw
    rw [hw] at hc
    simp at hc
  | cons x xs ih =>
    intro w hw c hc
    cases hs : splitOnChar sep xs with
    | nil => exact absurd hs (splitOnChar_ne_nil sep xs)
    | cons a as =>
      rw [splitOnChar_cons_eq sep x xs a as hs] at hw
      by_cases h : x = sep
      · rw [if_pos h] at hw
        rcases List.mem_cons.mp hw with hw1 | hw2
        · rw [hw1] at hc
          simp at hc
        · have := ih w (by rw [hs]; exact hw2) c hc
          exact ⟨List.mem_cons_of_mem x this.1, this.2⟩
      · rw [if_neg h] at hw
        rcases List.mem_cons.mp hw with hw1 | hw2
        · rw [hw1] at hc
          rcases List.mem_cons.mp hc with hc1 | hc2
          · rw [hc1]
            exact ⟨List.mem_cons_self x xs, h⟩
          · have := ih a (by rw [hs]; exact List.mem_cons_self a as) c hc2
            exact ⟨List.mem_cons_of_mem x this.1, this.2⟩
        · have := ih w (by rw [hs]; exact List.mem_cons_of_mem a hw2) c hc
          exact ⟨List.mem_cons_of_mem x this.1, this.2⟩

theorem wordsStep_ws (c : Char) (acc : List Char × List (List Char))
    (h : isWS c = true) :
    wordsStep c acc = ([], if acc.1 = [] then acc.2 else acc.1 :: acc.2) := by
  unfold wordsStep
  rw [if_pos h]

theorem wordsStep_nonws (c : Char) (acc : List Char × List (List Char))
    (h : isWS c = false) :
    wordsStep c acc = (c :: acc.1, acc.2) := by
  unfold wordsStep
  rw [if_neg (by simp [h])]

theorem words_foldr_tail (a : List Char) (tail : List (List Char)) :
    a.foldr wordsStep ([], tail)
      = ((a.foldr wordsStep ([], [])).1, (a.foldr wordsStep ([], [])).2 ++ tail) := by
  induction a with
  | nil => simp
  | cons c cs ih =>
    simp only [List.foldr, ih]
    by_cases h : isWS c = true
    · rw [wordsStep_ws c _ h, wordsStep_ws c _ h]
      simp only
      by_cases hq : (cs.foldr wordsStep ([], [])).1 = [] <;> simp [hq]
    · have h2 : isWS c = false := by
        simp at h
        exact h
      rw [wordsStep_nonws c _ h2, wordsStep_nonws c _ h2]

theorem wordsFin_append (q : List Char × List (List Char)) (tail : List (List Char)) :
    wordsFin (q.1, q.2 ++ tail) = wordsFin q ++ tail := by
  unfold wordsFin
  by_cases h : q.1 = [] <;> simp [h]

theorem wordsOf_nil : wordsOf [] = [] := rfl

theorem wordsOf_cons_ws (c : Char) (l : List Char) (h : isWS c = true) :
    wordsOf (c :: l) = wordsOf l := by
  show wordsFin (wordsStep c (l.foldr wordsStep ([], [])))
    = wordsFin (l.foldr wordsStep ([], []))
  rw [wordsStep_ws c _ h]
  unfold wordsFin
  by_cases hq : (l.foldr wordsStep ([], [])).1 = [] <;> simp [hq]

theorem wordsOf_append_ws (a b : List Char) (s : Char) (h : isWS s = true) :
    wordsOf (a ++ s :: b) = wordsOf a ++ wordsOf b := by
  unfold wordsOf
  rw [List.foldr_append]
  have h1 : List.foldr wordsStep ([], []) (s :: b)
      = ([], wordsFin (b.foldr wordsStep ([], []))) := by
    simp only [List.foldr]
    rw [wordsStep_ws s _ h]
    unfold wordsFin
    by_cases hq : (b.foldr wordsStep ([], [])).1 = [] <;> simp [hq]
  rw [h1, words_foldr_tail a (wordsFin (b.foldr wordsStep ([], [])))]
  rw [wordsFin_append]

theorem wordsOf_all_ws (t : List Char) (h : ∀ c ∈ t, isWS c = true) :
    wordsOf t = [] := by
  induction t with
  | nil => rfl
  | cons c cs ih =>
    rw [wordsOf_cons_ws c cs (h c (by simp))]
    exact ih (fun d hd => h d (List.mem_cons_of_mem c hd))

theorem wordsOf_append_all_ws (l t : List Char) (h : ∀ c ∈ t, isWS c = true) :
    wordsOf (l ++ t) = wordsOf l := by
  cases t with
  | nil => simp
  | cons c cs =>
    rw [wordsOf_append_ws l cs c (h c (by simp)),
      wordsOf_all_ws cs (fun d hd => h d (List.mem_cons_of_mem c hd))]
    simp

theorem words_foldr_all_nonws (w : List Char) (h : ∀ c ∈ w, isWS c = false) :
    w.foldr wordsStep ([], []) = (w, []) := by
  induction w with
  | nil => rfl
  | cons c cs ih =>
    simp only [List.foldr]
    rw [ih (fun d hd => h d (List.mem_cons_of_mem c hd))]
    rw [wordsStep_nonws c _ (h c (by simp))]

theorem wordsOf_of_nonws (w : List Char) (h : ∀ c ∈ w, isWS c = false)
    (hne : w ≠ []) : wordsOf w = [w] := by
  unfold wordsOf
  rw [words_foldr_all_nonws w h]
  unfold wordsFin
  rw [if_neg hne]

theorem rstrip_decomp (l : List Char) :
    ∃ t, l = rstrip l ++ t ∧ ∀ c ∈ t, isWS c = true := by
  refine ⟨(l.reverse.takeWhile isWS).reverse, ?_, ?_⟩
  · unfold rstrip
    calc l = l.reverse.reverse := (List.reverse_reverse l).symm
    _ = (List.takeWhile isWS l.reverse ++ List.dropWhile isWS l.reverse).reverse := by
        rw [List.takeWhile_append_dropWhile]
    _ = (List.dropWhile isWS l.reverse).reverse
          ++ (List.takeWhile isWS l.reverse).reverse := by
        rw [List.reverse_append]
  · intro c hc
    rw [List.mem_reverse] at hc
    exact List.mem_takeWhile_imp hc

theorem rstrip_length_le (l : List Char) : (rstrip l).length ≤ l.length := by
  unfold rstrip
  rw [List.length_reverse]
  calc (List.dropWhile isWS l.reverse).length ≤ l.reverse.length :=
    (List.dropWhile_sublist isWS).length_le
  _ = l.length := List.length_reverse l

theorem wordsOf_rstrip (l : List Char) : wordsOf (rstrip l) = wordsOf l := by
  obtain ⟨t, hl, ht⟩ := rstrip_decomp l
  conv_rhs => rw [hl]
  rw [wordsOf_append_all_ws _ t ht]

theorem rstrip_append_ws (l : List Char) (c : Char) (h : isWS c = true) :
    rstrip (l ++ [c]) = rstrip l := by
  unfold rstrip
  rw [List.reverse_append]
  simp [List.dropWhile, h]

theorem rstrip_nonws (w : List Char) (h : ∀ c ∈ w, isWS c = false) :
    rstrip w = w := by
  unfold rstrip
  cases hw : w.reverse with
  | nil =>
    have : w = [] := by
      rw [← List.reverse_reverse w, hw]
      rfl
    rw [this]
    rfl
  | cons c cs =>
    rw [List.dropWhile_cons_of_neg, ← hw, List.reverse_reverse]
    have hcw : c ∈ w := by
      rw [← List.reverse_reverse w, hw]
      simp
    simp [h c hcw]

theorem flatten_wordsFin (q : List Char × List (List Char)) :
    (wordsFin q).flatten = q.1 ++ q.2.flatten := by
  unfold wordsFin
  by_cases h : q.1 = [] <;> simp [h]

theorem flatten_wordsOf (l : List Char) :
    (wordsOf l).flatten = l.filter (fun c => ! isWS c) := by
  unfold wordsOf
  rw [flatten_wordsFin]
  induction l with
  | nil => rfl
  | cons c cs ih =>
    simp only [List.foldr]
    by_cases h : isWS c = true
    · rw [wordsStep_ws c _ h]
      simp only
      by_cases hq : (List.foldr wordsStep ([], []) cs).1 = []
      · rw [if_pos hq]
        rw [hq] at ih
        simp only [List.nil_append] at ih ⊢
        rw [ih]
        simp [List.filter, h]
      · rw [if_neg hq, List.flatten_cons]
        simp only [List.nil_append]
        rw [ih]
        simp [List.filter, h]
    · have h2 : isWS c = false := by
        simp at h
        exact h
      rw [wordsStep_nonws c _ h2]
      simp only [List.cons_append]
      rw [ih]
      simp [List.filter, h2]

theorem wordsOf_joinSep (sep : Char) (h : isWS sep = true) (ps : List (List Char)) :
    wordsOf (joinSep sep ps) = (ps.map wordsOf).flatten := by
  induction ps with
  | nil => rfl
  | cons p qs ih =>
    cases qs with
    | nil => simp [joinSep]
    | cons q rs =>
      simp only [joinSep]
      rw [wordsOf_append_ws _ _ sep h, ih]
      simp

theorem flatten_map_words_eq_filter (ws : List (List Char))
    (h : ∀ w ∈ ws, ∀ c ∈ w, isWS c = false) :
    (ws.map wordsOf).flatten = ws.filter (fun w => decide (w ≠ [])) := by
  induction ws with
  | nil => rfl
  | cons w rest ih =>
    simp only [List.map, List.flatten_cons, List.filter]
    by_cases hw : w = []
    · rw [hw]
      simp only [wordsOf_nil, List.nil_append]
      rw [ih (fun v hv => h v (List.mem_cons_of_mem w hv))]
      simp
    · rw [wordsOf_of_nonws w (h w (by simp)) hw]
      rw [ih (fun v hv => h v (List.mem_cons_of_mem w hv))]
      simp [hw]

theorem words_split_line (line : List Char)
    (h : ∀ c ∈ line, isWS c = false ∨ c = ' ') :
    (splitOnChar ' ' line).filter (fun w => decide (w ≠ [])) = wordsOf line := by
  conv_rhs => rw [← joinSep_splitOnChar ' ' line]
  rw [wordsOf_joinSep ' ' isWS_space]
  rw [flatten_map_words_eq_filter]
  intro w hw c hc
  have hm := mem_splitOnChar ' ' line w hw c hc
  rcases h c hm.1 with h1 | h2
  · exact h1
  · exact absurd h2 hm.2

theorem wordsOf_ends_ws_append (cur line : List Char)
    (h : cur = [] ∨ ∃ t0 c0, cur = t0 ++ [c0] ∧ isWS c0 = true) :
    wordsOf (cur ++ line) = wordsOf cur ++ wordsOf line := by
  rcases h with h | ⟨t0, c0, hc, hws⟩
  · rw [h]
    rfl
  · rw [hc, List.append_assoc, List.singleton_append]
    rw [wordsOf_append_ws t0 line c0 hws]
    rw [wordsOf_append_all_ws t0 [c0] (by
      intro c hcm
      rcases List.mem_singleton.mp hcm with rfl
      exact hws)]

theorem wordsOf_temp_extend (temp w : List Char)
    (hends : temp = [] ∨ ∃ t0, temp = t0 ++ [' ']) :
    wordsOf (temp ++ (w ++ [' '])) = wordsOf temp ++ wordsOf w := by
  have h2 : temp = [] ∨ ∃ t0 c0, temp = t0 ++ [c0] ∧ isWS c0 = true := by
    rcases hends with h | ⟨t0, ht⟩
    · exact Or.inl h
    · exact Or.inr ⟨t0, ' ', ht, isWS_space⟩
  rw [wordsOf_ends_ws_append temp (w ++ [' ']) h2]
  rw [wordsOf_append_all_ws w [' '] (by
    intro c hcm
    rcases List.mem_singleton.mp hcm with rfl
    exact isWS_space)]

theorem ws_singleton_all (c : Char) (h : isWS c = true) :
    ∀ d ∈ [c], isWS d = true := by
  intro d hd
  rcases List.mem_singleton.mp hd with rfl
  exact h

theorem appendPart_good (maxLen : Nat) (parts : List (List Char)) (cur : List Char)
    (hp : ∀ p ∈ parts, p ≠ [] ∧ p.length ≤ maxLen)
    (hc : (rstrip cur).length ≤ maxLen) :
    ∀ p ∈ appendPart parts cur, p ≠ [] ∧ p.length ≤ maxLen := by
  intro p hp2
  simp only [appendPart] at hp2
  by_cases h : rstrip cur = []
  · rw [if_pos h] at hp2
    exact hp p hp2
  · rw [if_neg h] at hp2
    rcases List.mem_append.mp hp2 with h1 | h2
    · exact hp p h1
    · rcases List.mem_singleton.mp h2 with rfl
      exact ⟨h, hc⟩

theorem appendPart_words (parts : List (List Char)) (cur : List Char) :
    ((appendPart parts cur).map wordsOf).flatten
      = (parts.map wordsOf).flatten ++ wordsOf cur := by
  simp only [appendPart]
  by_cases h : rstrip cur = []
  · rw [if_pos h]
    have hw : wordsOf cur = [] := by
      rw [← wordsOf_rstrip cur, h, wordsOf_nil]
    rw [hw]
    simp
  · rw [if_neg h, List.map_append, List.flatten_append]
    simp [wordsOf_rstrip]

theorem processWords_cons_flush_fit (maxLen : Nat) (w : List Char)
    (ws' parts : List (List Char)) (temp : List Char)
    (hF : maxLen < (temp ++ (w ++ [' '])).length ∧ temp ≠ [])
    (hcand : (w ++ [' ']).length ≤ maxLen) :
    processWords maxLen (w :: ws') parts temp
      = processWords maxLen ws' (appendPart parts temp) (w ++ [' ']) := by
  simp only [processWords]
  rw [if_pos hF, if_pos hcand]
  rfl

theorem processWords_cons_noflush_fit (maxLen : Nat) (w : List Char)
    (ws' parts : List (List Char)) (temp : List Char)
    (hnF : ¬ (maxLen < (temp ++ (w ++ [' '])).length ∧ temp ≠ []))
    (hcand : (w ++ [' ']).length ≤ maxLen) :
    processWords maxLen (w :: ws') parts temp
      = processWords maxLen ws' parts (temp ++ (w ++ [' '])) := by
  simp only [processWords]
  rw [if_neg hnF, if_pos hcand]

theorem processWords_cons_big_flush (maxLen : Nat) (w : List Char)
    (ws' parts : List (List Char)) (temp : List Char)
    (htempne : temp ≠ [])
    (hnc : ¬ (w ++ [' ']).length ≤ maxLen)
    (hwlen : w.length ≤ maxLen) (hwne : w ≠ []) :
    processWords maxLen (w :: ws') parts temp
      = processWords maxLen ws' (appendPart parts temp) (w ++ [' ']) := by
  have hF : maxLen < (temp ++ (w ++ [' '])).length ∧ temp ≠ [] := by
    constructor
    · rw [List.length_append]
      rw [List.length_append] at hnc ⊢
      simp at hnc ⊢
      omega
    · exact htempne
  simp only [processWords]
  rw [if_pos hF, if_neg hnc,
    hardSplitLoop_small maxLen (appendPart parts temp, ([] : List Char)).1 w hwlen]
  simp [hwne]

theorem processWords_cons_big_noflush (maxLen : Nat) (w : List Char)
    (ws' parts : List (List Char)) (temp : List Char)
    (htemp : temp = [])
    (hnc : ¬ (w ++ [' ']).length ≤ maxLen)
    (hwlen : w.length ≤ maxLen) (hwne : w ≠ []) :
    processWords maxLen (w :: ws') parts temp
      = processWords maxLen ws' parts (w ++ [' ']) := by
  have hnF : ¬ (maxLen < (temp ++ (w ++ [' '])).length ∧ temp ≠ []) := by
    rw [htemp]
    simp
  simp only [processWords]
  rw [if_neg hnF, if_neg hnc,
    hardSplitLoop_small maxLen (parts, temp).1 w hwlen]
  simp [hwne]

theorem wordsOf_word_space (w : List Char) (hw : ∀ c ∈ w, isWS c = false) :
    wordsOf (w ++ [' ']) = (if w = [] then [] else [w]) := by
  rw [wordsOf_append_all_ws w [' '] (ws_singleton_all ' ' isWS_space)]
  by_cases h : w = []
  · rw [h, if_pos rfl, wordsOf_nil]
  · rw [if_neg h, wordsOf_of_nonws w hw h]

theorem rstrip_word_space (w : List Char) (hw : ∀ c ∈ w, isWS c = false) :
    rstrip (w ++ [' ']) = w := by
  rw [rstrip_append_ws w ' ' isWS_space, rstrip_nonws w hw]

theorem filter_ne_cons (w : List Char) (ws : List (List Char)) :
    (w :: ws).filter (fun v => decide (v ≠ []))
      = (if w = [] then [] else [w]) ++ ws.filter (fun v => decide (v ≠ [])) := by
  rw [List.filter_cons]
  by_cases h : w = []
  · simp [h]
  · simp [h]

theorem processWords_spec (maxLen : Nat) (hml : 0 < maxLen)
    (ws : List (List Char)) :
    ∀ (parts : List (List Char)) (temp : List Char),
    (∀ w ∈ ws, (∀ c ∈ w, isWS c = false) ∧ w.length ≤ maxLen) →
    (∀ p ∈ parts, p ≠ [] ∧ p.length ≤ maxLen) →
    (rstrip temp).length ≤ maxLen →
    (temp = [] ∨ ∃ t0, temp = t0 ++ [' ']) →
    (∀ p ∈ (processWords maxLen ws parts temp).1, p ≠ [] ∧ p.length ≤ maxLen)
    ∧ (rstrip (processWords maxLen ws parts temp).2).length ≤ maxLen
    ∧ ((processWords maxLen ws parts temp).2 = []
        ∨ ∃ t0, (processWords maxLen ws parts temp).2 = t0 ++ [' '])
    ∧ ((processWords maxLen ws parts temp).1.map wordsOf).flatten
        ++ wordsOf (processWords maxLen ws parts temp).2
      = (parts.map wordsOf).flatten ++ wordsOf temp
        ++ (ws.filter (fun v => decide (v ≠ []))) := by
  induction ws with
  | nil =>
    intro parts temp hws hp ht1 ht2
    refine ⟨hp, ht1, ht2, by simp [processWords]⟩
  | cons w ws' ih =>
    intro parts temp hws hp ht1 ht2
    have hw := hws w (List.mem_cons_self w ws')
    have hws' : ∀ v ∈ ws', (∀ c ∈ v, isWS c = false) ∧ v.length ≤ maxLen :=
      fun v hv => hws v (List.mem_cons_of_mem w hv)
    have hcand_rstrip : (rstrip (w ++ [' '])).length ≤ maxLen := by
      rw [rstrip_word_space w hw.1]
      exact hw.2
    have hcand_ends : (w ++ [' '] : List Char) = [] ∨ ∃ t0, w ++ [' '] = t0 ++ [' '] :=
      Or.inr ⟨w, rfl⟩
    by_cases hcand : (w ++ [' ']).length ≤ maxLen
    · by_cases hF : maxLen < (temp ++ (w ++ [' '])).length ∧ temp ≠ []
      · rw [processWords_cons_flush_fit maxLen w ws' parts temp hF hcand]
        obtain ⟨g1, g2, g3, g4⟩ := ih (appendPart parts temp) (w ++ [' ']) hws'
          (appendPart_good maxLen parts temp hp ht1) hcand_rstrip hcand_ends
        refine ⟨g1, g2, g3, ?_⟩
        rw [g4, appendPart_words, wordsOf_word_space w hw.1, filter_ne_cons]
        simp [List.append_assoc]
      · rw [processWords_cons_noflush_fit maxLen w ws' parts temp hF hcand]
        have hT1 : (rstrip (temp ++ (w ++ [' ']))).length ≤ maxLen := by
          rcases (by push_neg at hF; exact hF :
              maxLen < (temp ++ (w ++ [' '])).length → temp = []) with h2
          by_cases hlen : (temp ++ (w ++ [' '])).length ≤ maxLen
          · calc (rstrip (temp ++ (w ++ [' ']))).length
                ≤ (temp ++ (w ++ [' '])).length := rstrip_length_le _
            _ ≤ maxLen := hlen
          · rw [h2 (by omega)]
            simpa using hcand_rstrip
        have hT2 : temp ++ (w ++ [' ']) = [] ∨ ∃ t0, temp ++ (w ++ [' ']) = t0 ++ [' '] :=
          Or.inr ⟨temp ++ w, by rw [List.append_assoc]⟩
        obtain ⟨g1, g2, g3, g4⟩ := ih parts (temp ++ (w ++ [' '])) hws' hp hT1 hT2
        refine ⟨g1, g2, g3, ?_⟩
        rw [g4, wordsOf_temp_extend temp w ht2, filter_ne_cons]
        by_cases hwnil : w = []
        · rw [hwnil]
          simp [wordsOf_nil]
        · rw [wordsOf_of_nonws w hw.1 hwnil]
          simp [List.append_assoc, hwnil]
    · have hwne : w ≠ [] := by
        intro he
        rw [he] at hcand
        simp at hcand
        omega
      by_cases htemp : temp = []
      · rw [processWords_cons_big_noflush maxLen w ws' parts temp htemp hcand hw.2 hwne]
        obtain ⟨g1, g2, g3, g4⟩ := ih parts (w ++ [' ']) hws' hp hcand_rstrip hcand_ends
        refine ⟨g1, g2, g3, ?_⟩
        rw [g4, wordsOf_word_space w hw.1, filter_ne_cons, htemp]
        simp [List.append_assoc, wordsOf_nil]
      · rw [processWords_cons_big_flush maxLen w ws' parts temp htemp hcand hw.2 hwne]
        obtain ⟨g1, g2, g3, g4⟩ := ih (appendPart parts temp) (w ++ [' ']) hws'
          (appendPart_good maxLen parts temp hp ht1) hcand_rstrip hcand_ends
        refine ⟨g1, g2, g3, ?_⟩
        rw [g4, appendPart_words, wordsOf_word_space w hw.1, filter_ne_cons]
        simp [List.append_assoc]

theorem rstrip_nil : rstrip [] = [] := rfl

theorem processLine_long (maxLen : Nat) (parts : List (List Char))
    (cur line : List Char) (hlong : maxLen < line.length) :
    processLine maxLen (parts, cur) line
      = processWords maxLen (splitOnChar ' ' line)
          (if cur = [] then parts else appendPart parts cur) [] := by
  simp only [processLine]
  rw [if_pos hlong]

theorem processLine_fit (maxLen : Nat) (parts : List (List Char))
    (cur line : List Char) (hlong : ¬ maxLen < line.length)
    (hfit : (cur ++ line ++ [Char.ofNat 10]).length ≤ maxLen) :
    processLine maxLen (parts, cur) line
      = (parts, cur ++ line ++ [Char.ofNat 10]) := by
  simp only [processLine]
  rw [if_neg hlong, if_pos hfit]

theorem processLine_nofit (maxLen : Nat) (parts : List (List Char))
    (cur line : List Char) (hlong : ¬ maxLen < line.length)
    (hfit : ¬ (cur ++ line ++ [Char.ofNat 10]).length ≤ maxLen) :
    processLine maxLen (parts, cur) line
      = ((if cur = [] then parts else appendPart parts cur),
         line ++ [Char.ofNat 10]) := by
  simp only [processLine]
  rw [if_neg hlong, if_neg hfit]

theorem flush_cur_good (maxLen : Nat) (parts : List (List Char)) (cur : List Char)
    (hp : ∀ p ∈ parts, p ≠ [] ∧ p.length ≤ maxLen)
    (hc : (rstrip cur).length ≤ maxLen) :
    ∀ p ∈ (if cur = [] then parts else appendPart parts cur),
      p ≠ [] ∧ p.length ≤ maxLen := by
  by_cases h : cur = []
  · rw [if_pos h]
    exact hp
  · rw [if_neg h]
    exact appendPart_good maxLen parts cur hp hc

theorem flush_cur_words (parts : List (List Char)) (cur : List Char) :
    ((if cur = [] then parts else appendPart parts cur).map wordsOf).flatten
      = (parts.map wordsOf).flatten ++ wordsOf cur := by
  by_cases h : cur = []
  · rw [if_pos h, h, wordsOf_nil]
    simp
  · rw [if_neg h]
    exact appendPart_words parts cur

theorem processLines_spec (maxLen : Nat) (hml : 0 < maxLen)
    (lines : List (List Char)) :
    ∀ (parts : List (List Char)) (cur : List Char),
    (∀ line ∈ lines,
      (∀ c ∈ line, isWS c = false ∨ c = ' ')
      ∧ (∀ v ∈ splitOnChar ' ' line, v.length ≤ maxLen)) →
    (∀ p ∈ parts, p ≠ [] ∧ p.length ≤ maxLen) →
    (rstrip cur).length ≤ maxLen →
    (cur = [] ∨ ∃ t0 c0, cur = t0 ++ [c0] ∧ isWS c0 = true) →
    (∀ p ∈ (lines.foldl (processLine maxLen) (parts, cur)).1,
        p ≠ [] ∧ p.length ≤ maxLen)
    ∧ (rstrip (lines.foldl (processLine maxLen) (parts, cur)).2).length ≤ maxLen
    ∧ ((lines.foldl (processLine maxLen) (parts, cur)).2 = []
        ∨ ∃ t0 c0, (lines.foldl (processLine maxLen) (parts, cur)).2 = t0 ++ [c0]
            ∧ isWS c0 = true)
    ∧ ((lines.foldl (processLine maxLen) (parts, cur)).1.map wordsOf).flatten
        ++ wordsOf (lines.foldl (processLine maxLen) (parts, cur)).2
      = (parts.map wordsOf).flatten ++ wordsOf cur
        ++ (lines.map wordsOf).flatten := by
  induction lines with
  | nil =>
    intro parts cur hlines hp hc1 hc2
    refine ⟨hp, hc1, hc2, by simp⟩
  | cons line rest ih =>
    intro parts cur hlines hp hc1 hc2
    have hline := hlines line (List.mem_cons_self line rest)
    have hrest : ∀ l ∈ rest,
        (∀ c ∈ l, isWS c = false ∨ c = ' ')
        ∧ (∀ v ∈ splitOnChar ' ' l, v.length ≤ maxLen) :=
      fun l hl => hlines l (List.mem_cons_of_mem line hl)
    rw [List.foldl_cons]
    by_cases hlong : maxLen < line.length
    · rw [processLine_long maxLen parts cur line hlong]
      have hws : ∀ v ∈ splitOnChar ' ' line,
          (∀ c ∈ v, isWS c = false) ∧ v.length ≤ maxLen := by
        intro v hv
        refine ⟨?_, hline.2 v hv⟩
        intro c hcm
        have hm := mem_splitOnChar ' ' line v hv c hcm
        rcases hline.1 c hm.1 with h1 | h2
        · exact h1
        · exact absurd h2 hm.2
      obtain ⟨i1, i2, i3, i4⟩ := processWords_spec maxLen hml (splitOnChar ' ' line)
        (if cur = [] then parts else appendPart parts cur) []
        hws (flush_cur_good maxLen parts cur hp hc1)
        (by rw [rstrip_nil]; exact Nat.zero_le maxLen) (Or.inl rfl)
      have i3' : (processWords maxLen (splitOnChar ' ' line)
            (if cur = [] then parts else appendPart parts cur) []).2 = []
          ∨ ∃ t0 c0, (processWords maxLen (splitOnChar ' ' line)
            (if cur = [] then parts else appendPart parts cur) []).2 = t0 ++ [c0]
            ∧ isWS c0 = true := by
        rcases i3 with h | ⟨t0, ht⟩
        · exact Or.inl h
        · exact Or.inr ⟨t0, ' ', ht, isWS_space⟩
      obtain ⟨g1, g2, g3, g4⟩ := ih _ _ hrest i1 i2 i3'
      refine ⟨g1, g2, g3, ?_⟩
      rw [g4, i4, flush_cur_words, wordsOf_nil,
        words_split_line line hline.1]
      simp [List.append_assoc]
    · by_cases hfit : (cur ++ line ++ [Char.ofNat 10]).length ≤ maxLen
      · rw [processLine_fit maxLen parts cur line hlong hfit]
        have hc1' : (rstrip (cur ++ line ++ [Char.ofNat 10])).length ≤ maxLen :=
          le_trans (rstrip_length_le _) hfit
        have hc2' : cur ++ line ++ [Char.ofNat 10] = []
            ∨ ∃ t0 c0, cur ++ line ++ [Char.ofNat 10] = t0 ++ [c0] ∧ isWS c0 = true :=
          Or.inr ⟨cur ++ line, Char.ofNat 10, rfl, isWS_nl⟩
        obtain ⟨g1, g2, g3, g4⟩ := ih _ _ hrest hp hc1' hc2'
        refine ⟨g1, g2, g3, ?_⟩
        rw [g4, wordsOf_append_all_ws (cur ++ line) [Char.ofNat 10]
          (ws_singleton_all (Char.ofNat 10) isWS_nl),
          wordsOf_ends_ws_append cur line hc2]
        simp [List.append_assoc]
      · rw [processLine_nofit maxLen parts cur line hlong hfit]
        have hc1' : (rstrip (line ++ [Char.ofNat 10])).length ≤ maxLen := by
          rw [rstrip_append_ws line (Char.ofNat 10) isWS_nl]
          calc (rstrip line).length ≤ line.length := rstrip_length_le line
          _ ≤ maxLen := by omega
        have hc2' : line ++ [Char.ofNat 10] = []
            ∨ ∃ t0 c0, line ++ [Char.ofNat 10] = t0 ++ [c0] ∧ isWS c0 = true :=
          Or.inr ⟨line, Char.ofNat 10, rfl, isWS_nl⟩
        obtain ⟨g1, g2, g3, g4⟩ := ih _ _ hrest
          (flush_cur_good maxLen parts cur hp hc1) hc1' hc2'
        refine ⟨g1, g2, g3, ?_⟩
        rw [g4, flush_cur_words,
          wordsOf_append_all_ws line [Char.ofNat 10]
            (ws_singleton_all (Char.ofNat 10) isWS_nl)]
        simp [List.append_assoc]

/-- C4, amended: for a positive limit and a text whose whitespace is spaces
and newlines, whose whitespace-delimited words each fit the limit, and which
contains at least one word, the Discord splitter _split_long_text (the one
used by both send paths) returns chunks that are all nonempty and within
the limit, preserves the word sequence exactly (no word is ever split
across chunks), and its chunks reconstruct the original content modulo
whitespace. Without the word-fits-limit hypothesis both properties fail:
the Discord variant hard-splits an overlong word mid-word, and the Telegram
copy emits a chunk longer than the limit. -/
theorem c4_theorem (text : List Char) (maxLen : Nat)
    (hml : 0 < maxLen)
    (hchars : ∀ c ∈ text, isWS c = false ∨ c = ' ' ∨ c = Char.ofNat 10)
    (hwords : ∀ w ∈ wordsOf text, w.length ≤ maxLen)
    (hne : wordsOf text ≠ []) :
    (∀ p ∈ split_long_text text maxLen, p ≠ [] ∧ p.length ≤ maxLen)
    ∧ wordsOf (joinSep ' ' (split_long_text text maxLen)) = wordsOf text
    ∧ (joinSep ' ' (split_long_text text maxLen)).filter (fun c => ! isWS c)
        = text.filter (fun c => ! isWS c) := by
  have htne : text ≠ [] := by
    intro he
    rw [he] at hne
    exact hne wordsOf_nil
  have htext : wordsOf text
      = ((splitOnChar (Char.ofNat 10) text).map wordsOf).flatten := by
    conv_lhs => rw [← joinSep_splitOnChar (Char.ofNat 10) text]
    exact wordsOf_joinSep (Char.ofNat 10) isWS_nl _
  by_cases hshort : text.length ≤ maxLen
  · unfold split_long_text
    rw [if_pos hshort]
    refine ⟨?_, ?_, ?_⟩
    · intro p hp
      rcases List.mem_singleton.mp hp with rfl
      exact ⟨htne, hshort⟩
    · rfl
    · rfl
  · have hlines : ∀ line ∈ splitOnChar (Char.ofNat 10) text,
        (∀ c ∈ line, isWS c = false ∨ c = ' ')
        ∧ (∀ v ∈ splitOnChar ' ' line, v.length ≤ maxLen) := by
      intro line hl
      have hlc : ∀ c ∈ line, isWS c = false ∨ c = ' ' := by
        intro c hcm
        have hm := mem_splitOnChar (Char.ofNat 10) text line hl c hcm
        rcases hchars c hm.1 with h1 | h2 | h3
        · exact Or.inl h1
        · exact Or.inr h2
        · exact absurd h3 hm.2
      refine ⟨hlc, ?_⟩
      intro v hv
      by_cases hvnil : v = []
      · rw [hvnil]
        simp
      · have hvw : v ∈ wordsOf line := by
          rw [← words_split_line line hlc]
          exact List.mem_filter.mpr ⟨hv, by simp [hvnil]⟩
        have hvt : v ∈ wordsOf text := by
          rw [htext]
          exact List.mem_flatten.mpr ⟨wordsOf line,
            List.mem_map.mpr ⟨line, hl, rfl⟩, hvw⟩
        exact hwords v hvt
    obtain ⟨g1, g2, g3, g4⟩ := processLines_spec maxLen hml
      (splitOnChar (Char.ofNat 10) text) [] [] hlines (by simp)
      (by rw [rstrip_nil]; exact Nat.zero_le maxLen) (Or.inl rfl)
    have hfinal : ((if ((splitOnChar (Char.ofNat 10) text).foldl
          (processLine maxLen) ([], [])).2 = []
        then ((splitOnChar (Char.ofNat 10) text).foldl (processLine maxLen) ([], [])).1
        else appendPart
          ((splitOnChar (Char.ofNat 10) text).foldl (processLine maxLen) ([], [])).1
          ((splitOnChar (Char.ofNat 10) text).foldl
            (processLine maxLen) ([], [])).2).map wordsOf).flatten
        = wordsOf text := by
      rw [flush_cur_words, g4, htext]
      simp [wordsOf_nil]
    have hgood := flush_cur_good maxLen _ _ g1 g2
    have hpne : (if ((splitOnChar (Char.ofNat 10) text).foldl
          (processLine maxLen) ([], [])).2 = []
        then ((splitOnChar (Char.ofNat 10) text).foldl (processLine maxLen) ([], [])).1
        else appendPart
          ((splitOnChar (Char.ofNat 10) text).foldl (processLine maxLen) ([], [])).1
          ((splitOnChar (Char.ofNat 10) text).foldl
            (processLine maxLen) ([], [])).2) ≠ [] := by
      intro he
      rw [he] at hfinal
      exact hne hfinal.symm
    unfold split_long_text
    rw [if_neg hshort]
    simp only
    rw [if_neg hpne]
    refine ⟨hgood, ?_, ?_⟩
    · rw [wordsOf_joinSep ' ' isWS_space, hfinal]
    · rw [← flatten_wordsOf, ← flatten_wordsOf (l := text),
        wordsOf_joinSep ' ' isWS_space, hfinal]

/-- C4, counterexample to the claim as stated: a text that is one single
word of length 3*limit+10 (limit 5, 25 characters) is hard-split mid-word
by the Discord splitter — the word sequence is not preserved — and the
Telegram copy returns it as one chunk of length 25 > 5, exceeding the
limit. So the claimed properties fail for general inputs, and in
particular for a text of length 3*limit+10. -/
theorem c4_counterexample :
    (List.replicate 25 'a').length = 3 * 5 + 10
    ∧ wordsOf (joinSep ' ' (split_long_text (List.replicate 25 'a') 5))
        ≠ wordsOf (List.replicate 25 'a')
    ∧ ∃ p ∈ split_long_text_tg (List.replicate 25 'a') 5, 5 < p.length := by
  refine ⟨by decide, by decide, ⟨List.replicate 25 'a', by decide, by decide⟩⟩

theorem c4_witness :
    (List.replicate 20 ('a' :: 'b' :: 'c' :: 'd' :: [' '])).flatten.length
        = 3 * 30 + 10
    ∧ ((∀ p ∈ split_long_text
          (List.replicate 20 ('a' :: 'b' :: 'c' :: 'd' :: [' '])).flatten 30,
        p ≠ [] ∧ p.length ≤ 30)
      ∧ wordsOf (joinSep ' ' (split_long_text
            (List.replicate 20 ('a' :: 'b' :: 'c' :: 'd' :: [' '])).flatten 30))
          = wordsOf (List.replicate 20 ('a' :: 'b' :: 'c' :: 'd' :: [' '])).flatten
      ∧ (joinSep ' ' (split_long_text
            (List.replicate 20 ('a' :: 'b' :: 'c' :: 'd' :: [' '])).flatten 30)).filter
            (fun c => ! isWS c)
          = (List.replicate 20 ('a' :: 'b' :: 'c' :: 'd' :: [' '])).flatten.filter
            (fun c => ! isWS c)) := by
  refine ⟨by decide, c4_theorem _ 30 (by decide) (by decide) (by decide) (by decide)⟩
